import Mathlib

/-!
Shallow embedding of `estimagic/visualization/interactive_distribution_plot.py`
and verification of the specification's claims about it.

Dataframes are modelled as lists of rows together with an explicit column
list; a row maps column names to cells.  Numeric cells carry exact rationals
(the Python code works with floats; the spec's claims are about the exact
arithmetic the code expresses).  Python's `float(...)` string conversion,
which appears only inside `_clean_subgroup_col`, is kept as an explicit
parameter of the pipeline so that no behaviour is invented for it.
-/

namespace IDP

/-- A dataframe cell: missing (NaN/None), a string, or a number. -/
inductive Cell where
  | null : Cell
  | str : String → Cell
  | num : ℚ → Cell
deriving DecidableEq, Repr

/-- A row assigns a cell to every column name (columns outside the frame's
column list are `null`). -/
abbrev Row := String → Cell

/-- A dataframe: column list plus rows. -/
structure DF where
  cols : List String
  rows : List Row

def Cell.isNull : Cell → Bool
  | Cell.null => true
  | _ => false

def Cell.toNum : Cell → Option ℚ
  | Cell.num q => some q
  | _ => none

def Cell.isNum : Cell → Bool
  | Cell.num _ => true
  | _ => false

/-- Functional update of one column of a row. -/
def updateCell (r : Row) (c : String) (v : Cell) : Row :=
  fun c' => if c' = c then v else r c'

/-- Build a row from an association list (missing columns are null). -/
def mkRow (l : List (String × Cell)) : Row :=
  fun c => (((l.find? (fun p => p.1 = c)).map Prod.snd).getD Cell.null)

@[simp] theorem updateCell_same (r : Row) (c : String) (v : Cell) :
    updateCell r c v c = v := by simp [updateCell]

theorem updateCell_other (r : Row) (c c' : String) (v : Cell) (h : c' ≠ c) :
    updateCell r c v c' = r c' := by simp [updateCell, h]

/-! ### Positions, filtering and sorting

`add_histogram_columns_to_tidy_df` first drops rows with a null in any of
`group_cols + [subgroup_col, value_col, id_col]`, then sorts by
`group_cols + [subgroup_col, value_col]` and resets the index (which inserts
the old positional index as a column named `index`). -/

/-- Pair every row with its positional index, starting at `n`. -/
def withPositions : ℕ → List Row → List (ℕ × Row)
  | _, [] => []
  | n, r :: l => (n, r) :: withPositions (n + 1) l

/-- The rows kept by the notnull filter: no null in any of the key columns. -/
def keepRow (keyCols : List String) (r : Row) : Bool :=
  keyCols.all (fun c => !(r c).isNull)

/-- Total comparison on cells used for `sort_values` keys (the order among
cells of different kinds is a modelling choice; sort keys are homogeneous
and non-null after the filter, and no claim depends on tie order since
pandas' default quicksort is itself unstable). -/
def cellRank : Cell → ℕ
  | Cell.null => 0
  | Cell.str _ => 1
  | Cell.num _ => 2

def cellLe (a b : Cell) : Bool :=
  match a, b with
  | Cell.str s, Cell.str t => decide (s ≤ t)
  | Cell.num p, Cell.num q => decide (p ≤ q)
  | _, _ => decide (cellRank a ≤ cellRank b)

/-- Lexicographic comparison of key tuples. -/
def lexLe : List Cell → List Cell → Bool
  | [], _ => true
  | _ :: _, [] => false
  | a :: l, b :: m => if a = b then lexLe l m else cellLe a b

/-- `sort_values` key comparison between two indexed rows. -/
def rowKeyLe (keys : List String) (p q : ℕ × Row) : Bool :=
  lexLe (keys.map p.2) (keys.map q.2)

/-- Insert into a list sorted by `le`. -/
def insertSorted (le : (ℕ × Row) → (ℕ × Row) → Bool) (a : ℕ × Row) :
    List (ℕ × Row) → List (ℕ × Row)
  | [] => [a]
  | b :: l => if le a b then a :: b :: l else b :: insertSorted le a l

/-- Sort rows by the comparison `le` (insertion sort). -/
def sortRowsBy (le : (ℕ × Row) → (ℕ × Row) → Bool) :
    List (ℕ × Row) → List (ℕ × Row)
  | [] => []
  | a :: l => insertSorted le a (sortRowsBy le l)

theorem insertSorted_perm (le) (a : ℕ × Row) (l : List (ℕ × Row)) :
    (insertSorted le a l).Perm (a :: l) := by
  induction l with
  | nil => simp [insertSorted]
  | cons b l ih =>
    simp only [insertSorted]
    by_cases h : le a b = true
    · simp [h]
    · simp only [h, if_false]
      exact ((ih.cons b).trans (List.Perm.swap a b l)).symm.symm

theorem sortRowsBy_perm (le) (l : List (ℕ × Row)) :
    (sortRowsBy le l).Perm l := by
  induction l with
  | nil => simp [sortRowsBy]
  | cons a l ih =>
    exact (insertSorted_perm le a (sortRowsBy le l)).trans (ih.cons a)

/-! ### Binning (`_calculate_x_bounds`, `np.linspace`, `pd.cut`) -/

def listMin : List ℚ → Option ℚ
  | [] => none
  | a :: l => some (match listMin l with | none => a | some m => min a m)

def listMax : List ℚ → Option ℚ
  | [] => none
  | a :: l => some (match listMax l with | none => a | some m => max a m)

/-- `_calculate_x_bounds`: pad the raw min/max of the values by
`max(raw_max - raw_min, 1e-50) * padding` of white space on each side.
Returns `none` on an empty value list (pandas would return NaN bounds). -/
def calculateXBounds (vals : List ℚ) (padding : ℚ) : Option (ℚ × ℚ) :=
  match listMin vals, listMax vals with
  | some rawMin, some rawMax =>
      let whiteSpace := max (rawMax - rawMin) (1 / 10 ^ 50) * padding
      some (rawMin - whiteSpace, rawMax + whiteSpace)
  | _, _ => none

/-- `pd.cut` with `right=True`: index of the interval
`(lo + i*w, lo + (i+1)*w]` containing `v` among `n` intervals, if any. -/
def cutIdx (v lo w : ℚ) : ℕ → Option ℕ
  | 0 => none
  | n + 1 =>
      if lo < v ∧ v ≤ lo + w then some 0
      else (cutIdx v (lo + w) w n).map (· + 1)

/-- The cell `pd.cut(..., labels=midpoints)` produces for value `v`:
the midpoint of the containing bin, or NaN when no bin contains `v`. -/
def cutMidCell (v lo w : ℚ) (n : ℕ) : Cell :=
  match cutIdx v lo w n with
  | some i => Cell.num (lo + i * w + w / 2)
  | none => Cell.null

/-! ### The feature-limitation guard, plot height, and `_find_next_lower` -/

/-- The guard at the top of `interactive_distribution_plot`:
`if len(group_cols) != 2 or type(group_cols) != list: raise NotImplementedError`.
(The `type` check is vacuous in the embedding, where `group_cols` is a list
by construction.) -/
def guardRaises (group_cols : List String) : Bool :=
  decide (group_cols.length ≠ 2)

/-- Python `int(...)` truncation toward zero on a rational. -/
def pyTrunc (q : ℚ) : ℤ :=
  if 0 ≤ q then ⌊q⌋ else -⌊-q⌋

/-- The plot height `_determine_plot_height` computes (before any warning):
`int((figure_height - n_groups*50) / n_params)`, with the default figure
height `int(max(min(30*dodge_max, 1000), 100))` when `figure_height` is None. -/
def computedPlotHeight (figureHeight : Option ℤ) (dodgeMax : ℚ)
    (nGroups nParams : ℕ) : ℤ :=
  let fh : ℤ :=
    match figureHeight with
    | some h => h
    | none => pyTrunc (max (min (30 * dodgeMax) 1000) 100)
  let spaceOfTitles : ℤ := nGroups * 50
  let availableSpace : ℤ := fh - spaceOfTitles
  pyTrunc ((availableSpace : ℚ) / (nParams : ℚ))

/-- `_determine_plot_height`: returns the plot height together with whether
the usability warning was emitted (`warnings.warn` when the height is below
50 pixels; the function returns the height in either case). -/
def determinePlotHeight (figureHeight : Option ℤ) (dodgeMax : ℚ)
    (nGroups nParams : ℕ) : ℤ × Bool :=
  let plotHeight := computedPlotHeight figureHeight dodgeMax nGroups nParams
  if plotHeight < 50 then (plotHeight, true) else (plotHeight, false)

/-! ### Per-group binning (`_bin_width_and_midpoints`) -/

/-- Values of `value_col` among the rows of `base` in the same binning group
as `r` (equal cells in all columns of `gkeys`). -/
def groupValues (base : List Row) (gkeys : List String) (r : Row)
    (valueCol : String) : List ℚ :=
  (base.filter (fun rr => gkeys.all (fun c => decide (rr c = r c)))).filterMap
    (fun rr => (rr valueCol).toNum)

/-- `_bin_width_and_midpoints_per_group` restricted to one row: the
`(binned_x, rect_width)` cells row `r` receives, computed from the padded
bounds of its group's values, `num_bins` equal-width bins, and `pd.cut`. -/
def binCells (base : List Row) (gkeys : List String) (valueCol : String)
    (numBins : ℕ) (xPadding : ℚ) (r : Row) : Cell × Cell :=
  match calculateXBounds (groupValues base gkeys r valueCol) xPadding with
  | some (xmin, xmax) =>
      let w := (xmax - xmin) / numBins
      let bx :=
        match (r valueCol).toNum with
        | some v => cutMidCell v xmin w numBins
        | none => Cell.null
      (bx, Cell.num w)
  | none => (Cell.null, Cell.null)

/-- `_bin_width_and_midpoints`: assign `binned_x` and `rect_width` to every
row; the grouping for the bin computation excludes the last group column, so
bins are comparable across the plots of one group. -/
def withBinning (base : List Row) (group_cols : List String)
    (valueCol : String) (numBins : ℕ) (xPadding : ℚ) : List Row :=
  base.map (fun r =>
    let bc := binCells base group_cols.dropLast valueCol numBins xPadding r
    updateCell (updateCell r "binned_x" bc.1) "rect_width" bc.2)

/-! ### Dodge offsets -/

/-- Grouping key test for the dodge computation: equal cells in all group
columns and in `binned_x`. -/
def sameDodgeKey (group_cols : List String) (rr r : Row) : Bool :=
  (group_cols.all (fun c => decide (rr c = r c))) &&
    decide (rr "binned_x" = r "binned_x")

/-- `0.5 + groupby(group_cols + ["binned_x"]).cumcount()`: each row gets 0.5
plus the number of preceding rows sharing its group key; rows whose
`binned_x` is NaN fall outside every group and get NaN. -/
def addDodge (group_cols : List String) : List Row → List Row → List Row
  | _, [] => []
  | prev, r :: rest =>
      let d :=
        if (r "binned_x").isNull then Cell.null
        else
          Cell.num (1 / 2 +
            ((prev.filter (fun rr => sameDodgeKey group_cols rr r)).length : ℚ))
      updateCell r "dodge" d :: addDodge group_cols (prev ++ [r]) rest

/-! ### Subgroup cleaning and color assignment -/

def uniqAux : List Cell → List Cell → List Cell
  | _, [] => []
  | seen, a :: l => if a ∈ seen then uniqAux seen l else a :: uniqAux (a :: seen) l

/-- `Series.unique`: the distinct values in order of first appearance. -/
def uniqueList (l : List Cell) : List Cell := uniqAux [] l

/-- `astype(str)` on one cell (the exact text a number is rendered as is
immaterial to every claim). -/
def toStrCell : Cell → Cell
  | Cell.null => Cell.str "nan"
  | Cell.str s => Cell.str s
  | Cell.num q => Cell.str (toString q)

/-- `astype(float)` on one cell, with `parseF` standing for Python's
`float(str)` conversion; `none` models a raised `ValueError`. -/
def toFloatCell (parseF : String → Option ℚ) : Cell → Option Cell
  | Cell.null => some Cell.null
  | Cell.str s => (parseF s).map Cell.num
  | Cell.num q => some (Cell.num q)

/-- `_clean_subgroup_col` as an elementwise map depending on the whole
column: fewer than 10 unique values → `astype(str)`; otherwise
`astype(float)` when every cell converts, else `astype(str)`. -/
def cleanCellFun (parseF : String → Option ℚ) (cells : List Cell)
    (c : Cell) : Cell :=
  if (uniqueList cells).length < 10 then toStrCell c
  else if cells.all (fun x => (toFloatCell parseF x).isSome) then
    (toFloatCell parseF c).getD c
  else toStrCell c

/-- Modelled from the spec: `get_color_palette` (imported from
`estimagic.dashboard.plotting_functions`, which is not among the sources)
returns a palette with exactly the requested number of colors. -/
def getColorPalette (n : ℕ) : List String :=
  (List.range n).map (fun i => "color" ++ toString i)

def lookupCell : List (Cell × String) → Cell → Option String
  | [], _ => none
  | (k, v) :: l, c => if c = k then some v else lookupCell l c

/-- `_create_color_col` as an elementwise map: build the value-to-color
dictionary from the unique values and a palette of the same size, then
replace each value by its color. -/
def colorFun (cells : List Cell) (c : Cell) : Cell :=
  let uniq := uniqueList cells
  let palette := getColorPalette uniq.length
  match lookupCell (uniq.zip palette) c with
  | some col => Cell.str col
  | none => c

/-- Write column `dst` of every row as `mk column (r src)`, where `column`
is the list of `src` cells of all rows (a columnwise assignment whose
elementwise function may depend on the whole column). -/
def mapColumn (src dst : String) (mk : List Cell → Cell → Cell)
    (rows : List Row) : List Row :=
  let cells := rows.map (fun r => r src)
  rows.map (fun r => updateCell r dst (mk cells (r src)))

/-! ### The assembled `add_histogram_columns_to_tidy_df` -/

/-- The first three steps of `add_histogram_columns_to_tidy_df`: drop rows
with nulls in the key columns, sort by group, subgroup and value, and reset
the index (pandas inserts the original positional index as a new first
column named `index`). -/
def pipelineBase (df : DF) (group_cols : List String)
    (subgroup_col value_col id_col : String) : List Row :=
  let keyCols := group_cols ++ [subgroup_col, value_col, id_col]
  let kept := (withPositions 0 df.rows).filter (fun p => keepRow keyCols p.2)
  let sorted :=
    sortRowsBy (rowKeyLe (group_cols ++ [subgroup_col, value_col])) kept
  sorted.map (fun p => updateCell p.2 "index" (Cell.num p.1))

/-- `add_histogram_columns_to_tidy_df`: filter, sort and reset the index,
then assign `binned_x` and `rect_width` per outer group, the `dodge`
offsets, the cleaned subgroup column, and the `color` column. -/
def addHistogramColumns (parseF : String → Option ℚ) (df : DF)
    (group_cols : List String) (subgroup_col value_col id_col : String)
    (numBins : ℕ) (xPadding : ℚ) : DF :=
  let base := pipelineBase df group_cols subgroup_col value_col id_col
  let binned := withBinning base group_cols value_col numBins xPadding
  let dodged := addDodge group_cols [] binned
  let subCleaned := mapColumn subgroup_col subgroup_col (cleanCellFun parseF) dodged
  let colored := mapColumn subgroup_col "color" colorFun subCleaned
  { cols := "index" :: df.cols ++ ["binned_x", "rect_width", "dodge", "color"],
    rows := colored }

/-- The columns the pipeline writes (beyond the subgroup column). -/
def specialCols : List String := ["index", "binned_x", "rect_width", "dodge", "color"]

/-- Well-formedness of the column-name configuration: the caller's columns
do not collide with the derived columns, and the subgroup column is distinct
from the group and value columns it is processed alongside. -/
def WFCols (group_cols : List String) (subgroup_col value_col id_col : String) : Prop :=
  (∀ c ∈ group_cols, c ∉ specialCols) ∧ subgroup_col ∉ specialCols ∧
    value_col ∉ specialCols ∧ id_col ∉ specialCols ∧
    subgroup_col ∉ group_cols ∧ subgroup_col ≠ value_col

instance (gc : List String) (sub vc idc : String) :
    Decidable (WFCols gc sub vc idc) := by
  unfold WFCols
  infer_instance

/-- Modelled from the spec: `_find_next_lower` lives in
`estimagic/visualization/comparison_plot.py`, which is not part of the
sources; the spec describes it through its test as returning "the next-lower
element" of a possibly unsorted array with respect to a value, i.e. the
greatest element that does not exceed the value (None/NaN when there is
none). -/
def findNextLower (arr : List ℚ) (v : ℚ) : Option ℚ :=
  listMax (arr.filter (fun a => a ≤ v))

/-! ### Lemmas about list minima and maxima -/

theorem listMin_eq_none_iff (l : List ℚ) : listMin l = none ↔ l = [] := by
  cases l <;> simp [listMin]

theorem listMax_eq_none_iff (l : List ℚ) : listMax l = none ↔ l = [] := by
  cases l <;> simp [listMax]

theorem listMin_isSome (l : List ℚ) (h : l ≠ []) : ∃ m, listMin l = some m := by
  cases l with
  | nil => exact absurd rfl h
  | cons a t => exact ⟨_, rfl⟩

theorem listMax_isSome (l : List ℚ) (h : l ≠ []) : ∃ m, listMax l = some m := by
  cases l with
  | nil => exact absurd rfl h
  | cons a t => exact ⟨_, rfl⟩

theorem listMin_le (l : List ℚ) (m : ℚ) (hm : listMin l = some m) :
    ∀ v ∈ l, m ≤ v := by
  induction l generalizing m with
  | nil => simp [listMin] at hm
  | cons a t ih =>
    simp only [listMin] at hm
    cases ht : listMin t with
    | none =>
      have hte : t = [] := (listMin_eq_none_iff t).1 ht
      subst hte
      simp only [listMin, Option.some.injEq] at hm
      intro v hv
      simp only [List.mem_singleton] at hv
      simp [hv, ← hm]
    | some m2 =>
      rw [ht] at hm
      simp only [Option.some.injEq] at hm
      intro v hv
      rcases List.mem_cons.1 hv with rfl | hvt
      · rw [← hm]; exact min_le_left v m2
      · exact le_trans (hm ▸ min_le_right a m2) (ih m2 ht v hvt)

theorem le_listMax (l : List ℚ) (m : ℚ) (hm : listMax l = some m) :
    ∀ v ∈ l, v ≤ m := by
  induction l generalizing m with
  | nil => simp [listMax] at hm
  | cons a t ih =>
    simp only [listMax] at hm
    cases ht : listMax t with
    | none =>
      have hte : t = [] := (listMax_eq_none_iff t).1 ht
      subst hte
      simp only [listMax, Option.some.injEq] at hm
      intro v hv
      simp only [List.mem_singleton] at hv
      simp [hv, ← hm]
    | some m2 =>
      rw [ht] at hm
      simp only [Option.some.injEq] at hm
      intro v hv
      rcases List.mem_cons.1 hv with rfl | hvt
      · rw [← hm]; exact le_max_left v m2
      · exact le_trans (ih m2 ht v hvt) (hm ▸ le_max_right a m2)

/-! ### Lemmas about positions, the base pipeline and binning -/

theorem withPositions_le (l : List Row) : ∀ (n : ℕ) (p : ℕ × Row),
    p ∈ withPositions n l → n ≤ p.1 := by
  induction l with
  | nil => intro n p h; simp [withPositions] at h
  | cons a t ih =>
    intro n p h
    simp only [withPositions, List.mem_cons] at h
    rcases h with rfl | h
    · exact le_refl n
    · exact le_trans (Nat.le_succ n) (ih (n + 1) p h)

theorem withPositions_inj (l : List Row) : ∀ (n i : ℕ) (r1 r2 : Row),
    (i, r1) ∈ withPositions n l → (i, r2) ∈ withPositions n l → r1 = r2 := by
  induction l with
  | nil => intro n i r1 r2 h _; simp [withPositions] at h
  | cons a t ih =>
    intro n i r1 r2 h1 h2
    simp only [withPositions, List.mem_cons, Prod.mk.injEq] at h1 h2
    rcases h1 with ⟨hi1, hr1⟩ | h1 <;> rcases h2 with ⟨hi2, hr2⟩ | h2
    · rw [hr1, hr2]
    · exfalso
      have := withPositions_le t (n + 1) (i, r2) h2
      omega
    · exfalso
      have := withPositions_le t (n + 1) (i, r1) h1
      omega
    · exact ih (n + 1) i r1 r2 h1 h2

theorem mem_pipelineBase (df : DF) (gc : List String) (sub vc idc : String)
    (r : Row) :
    r ∈ pipelineBase df gc sub vc idc ↔
    ∃ p : ℕ × Row, p ∈ withPositions 0 df.rows ∧
      keepRow (gc ++ [sub, vc, idc]) p.2 = true ∧
      r = updateCell p.2 "index" (Cell.num p.1) := by
  simp only [pipelineBase, List.mem_map]
  constructor
  · rintro ⟨p, hp, rfl⟩
    have hp2 := (sortRowsBy_perm _ _).mem_iff.1 hp
    have hm := List.mem_filter.1 hp2
    exact ⟨p, hm.1, hm.2, rfl⟩
  · rintro ⟨p, hmem, hkeep, rfl⟩
    exact ⟨p, (sortRowsBy_perm _ _).mem_iff.2 (List.mem_filter.2 ⟨hmem, hkeep⟩), rfl⟩

theorem list_all_congr {α : Type} (l : List α) (f g : α → Bool)
    (h : ∀ a ∈ l, f a = g a) : l.all f = l.all g := by
  induction l with
  | nil => rfl
  | cons a t ih =>
    simp only [List.all_cons]
    rw [h a (List.mem_cons_self a t), ih (fun x hx => h x (List.mem_cons_of_mem a hx))]

theorem groupValues_congr (base : List Row) (gkeys : List String) (vc : String)
    (r1 r2 : Row) (h : ∀ c ∈ gkeys, r1 c = r2 c) :
    groupValues base gkeys r1 vc = groupValues base gkeys r2 vc := by
  unfold groupValues
  congr 1
  apply List.filter_congr
  intro rr _
  apply list_all_congr
  intro c hc
  rw [h c hc]

theorem groupValues_self_mem (base : List Row) (gkeys : List String)
    (vc : String) (r : Row) (v : ℚ) (hr : r ∈ base) (hv : r vc = Cell.num v) :
    v ∈ groupValues base gkeys r vc := by
  unfold groupValues
  apply List.mem_filterMap.2
  refine ⟨r, List.mem_filter.2 ⟨hr, ?_⟩, ?_⟩
  · simp
  · rw [hv]; rfl

theorem calculateXBounds_eq_none (vals : List ℚ) (p : ℚ)
    (h : calculateXBounds vals p = none) : vals = [] := by
  by_contra hne
  obtain ⟨mn, hmn⟩ := listMin_isSome vals hne
  obtain ⟨mx, hmx⟩ := listMax_isSome vals hne
  simp [calculateXBounds, hmn, hmx] at h

theorem cutIdx_spec (v w : ℚ) : ∀ (n : ℕ) (lo : ℚ) (i : ℕ),
    cutIdx v lo w n = some i →
    i < n ∧ lo + (i : ℚ) * w < v ∧ v ≤ lo + ((i : ℚ) + 1) * w := by
  intro n
  induction n with
  | zero => intro lo i h; simp [cutIdx] at h
  | succ n ih =>
    intro lo i h
    simp only [cutIdx] at h
    by_cases hc : lo < v ∧ v ≤ lo + w
    · rw [if_pos hc] at h
      simp only [Option.some.injEq] at h
      subst h
      refine ⟨Nat.succ_pos n, by simpa using hc.1, ?_⟩
      have e : ((0 : ℕ) : ℚ) + 1 = 1 := by norm_num
      simpa [e] using hc.2
    · rw [if_neg hc] at h
      obtain ⟨j, hj, rfl⟩ := Option.map_eq_some'.1 h
      obtain ⟨h1, h2, h3⟩ := ih (lo + w) j hj
      refine ⟨by omega, ?_, ?_⟩
      · have e : ((j + 1 : ℕ) : ℚ) * w = (j : ℚ) * w + w := by push_cast; ring
        rw [e]
        linarith
      · have e : (((j + 1 : ℕ) : ℚ) + 1) * w = ((j : ℚ) + 1) * w + w := by
          push_cast; ring
        rw [e]
        linarith

theorem cutIdx_total (v w : ℚ) (_hw : 0 < w) : ∀ (n : ℕ) (lo : ℚ),
    lo < v → v ≤ lo + (n : ℚ) * w → ∃ i, cutIdx v lo w n = some i := by
  intro n
  induction n with
  | zero =>
    intro lo h1 h2
    exfalso
    simp only [Nat.cast_zero, zero_mul, add_zero] at h2
    linarith
  | succ n ih =>
    intro lo h1 h2
    by_cases hc : v ≤ lo + w
    · exact ⟨0, by simp [cutIdx, h1, hc]⟩
    · push_neg at hc
      have e : ((n + 1 : ℕ) : ℚ) * w = (n : ℚ) * w + w := by push_cast; ring
      rw [e] at h2
      obtain ⟨j, hj⟩ := ih (lo + w) hc (by linarith)
      refine ⟨j + 1, ?_⟩
      simp only [cutIdx]
      rw [if_neg (by rintro ⟨h3, h4⟩; linarith), hj]
      rfl

/-! ### Membership lemmas for the pipeline stages -/

theorem mem_addDodge (gc : List String) : ∀ (l prev : List Row) (s : Row),
    s ∈ addDodge gc prev l → ∃ r ∈ l, ∃ d, s = updateCell r "dodge" d := by
  intro l
  induction l with
  | nil => intro prev s h; simp [addDodge] at h
  | cons r rest ih =>
    intro prev s h
    simp only [addDodge, List.mem_cons] at h
    rcases h with rfl | h
    · exact ⟨r, List.mem_cons_self r rest, _, rfl⟩
    · obtain ⟨rr, hr', d, rfl⟩ := ih (prev ++ [r]) _ h
      exact ⟨rr, List.mem_cons_of_mem r hr', d, rfl⟩

theorem addDodge_mem_forward (gc : List String) : ∀ (l prev : List Row) (r : Row),
    r ∈ l → ∃ d, updateCell r "dodge" d ∈ addDodge gc prev l := by
  intro l
  induction l with
  | nil => intro prev r h; simp at h
  | cons a rest ih =>
    intro prev r h
    rcases List.mem_cons.1 h with rfl | h
    · refine ⟨if (r "binned_x").isNull then Cell.null
        else Cell.num (1 / 2 +
          (((prev.filter (fun rr => sameDodgeKey gc rr r)).length : ℚ))), ?_⟩
      simp only [addDodge]
      exact List.mem_cons_self _ _
    · obtain ⟨d, hd⟩ := ih (prev ++ [a]) r h
      refine ⟨d, ?_⟩
      simp only [addDodge]
      exact List.mem_cons_of_mem _ hd

theorem mem_mapColumn (src dst : String) (mk : List Cell → Cell → Cell)
    (rows : List Row) (s : Row) :
    s ∈ mapColumn src dst mk rows ↔
    ∃ r ∈ rows, s = updateCell r dst (mk (rows.map (fun rr => rr src)) (r src)) := by
  simp only [mapColumn, List.mem_map]
  constructor
  · rintro ⟨r, hr, rfl⟩
    exact ⟨r, hr, rfl⟩
  · rintro ⟨r, hr, rfl⟩
    exact ⟨r, hr, rfl⟩

theorem mapColumn_mem_forward (src dst : String) (mk : List Cell → Cell → Cell)
    (rows : List Row) (r : Row) (hr : r ∈ rows) :
    updateCell r dst (mk (rows.map (fun rr => rr src)) (r src)) ∈
      mapColumn src dst mk rows := by
  simp only [mapColumn, List.mem_map]
  exact ⟨r, hr, rfl⟩

theorem mem_withBinning (base : List Row) (gc : List String) (vc : String)
    (nb : ℕ) (xp : ℚ) (s : Row) :
    s ∈ withBinning base gc vc nb xp ↔
    ∃ r ∈ base,
      s = updateCell (updateCell r "binned_x"
            (binCells base gc.dropLast vc nb xp r).1) "rect_width"
            (binCells base gc.dropLast vc nb xp r).2 := by
  simp only [withBinning, List.mem_map]
  constructor
  · rintro ⟨r, hr, rfl⟩
    exact ⟨r, hr, rfl⟩
  · rintro ⟨r, hr, rfl⟩
    exact ⟨r, hr, rfl⟩

theorem list_map_congr {α β : Type} (l : List α) (f g : α → β)
    (h : ∀ a ∈ l, f a = g a) : l.map f = l.map g := by
  induction l with
  | nil => rfl
  | cons a t ih =>
    simp only [List.map_cons]
    rw [h a (List.mem_cons_self a t), ih (fun x hx => h x (List.mem_cons_of_mem a hx))]

theorem addDodge_cons (gc : List String) (prev : List Row) (r : Row)
    (rest : List Row) :
    addDodge gc prev (r :: rest) =
      updateCell r "dodge" (if (r "binned_x").isNull then Cell.null
        else Cell.num (1 / 2 +
          ((prev.filter (fun rr => sameDodgeKey gc rr r)).length : ℚ)))
        :: addDodge gc (prev ++ [r]) rest := rfl

theorem addDodge_map_col (gc : List String) (c : String) (hc : c ≠ "dodge") :
    ∀ (l prev : List Row),
    (addDodge gc prev l).map (fun r => r c) = l.map (fun r => r c) := by
  intro l
  induction l with
  | nil => intro prev; rfl
  | cons r rest ih =>
    intro prev
    rw [addDodge_cons, List.map_cons, List.map_cons, ih (prev ++ [r])]
    congr 1
    exact updateCell_other r "dodge" c _ hc

theorem withBinning_map_col (base : List Row) (gc : List String) (vc : String)
    (nb : ℕ) (xp : ℚ) (c : String) (h1 : c ≠ "binned_x")
    (h2 : c ≠ "rect_width") :
    (withBinning base gc vc nb xp).map (fun r => r c)
      = base.map (fun r => r c) := by
  unfold withBinning
  rw [List.map_map]
  apply list_map_congr
  intro r _
  show (updateCell (updateCell r "binned_x" _) "rect_width" _) c = r c
  rw [updateCell_other _ _ _ _ h2, updateCell_other _ _ _ _ h1]

theorem not_mem_specialCols {c : String} (h : c ∉ specialCols) :
    c ≠ "index" ∧ c ≠ "binned_x" ∧ c ≠ "rect_width" ∧ c ≠ "dodge" ∧
      c ≠ "color" := by
  simp only [specialCols, List.mem_cons, List.mem_singleton, not_or] at h
  exact ⟨h.1, h.2.1, h.2.2.1, h.2.2.2.1, h.2.2.2.2.1⟩

/-- Every output row of `add_histogram_columns_to_tidy_df` corresponds to a
row of the filtered, sorted, reindexed base: all columns other than the
subgroup column and the written derived columns are unchanged, the
`binned_x`/`rect_width` cells are the ones computed by the per-outer-group
binning of that base row, and the subgroup cell is the base row's subgroup
value normalised in place by `_clean_subgroup_col` (with the whole retained
subgroup column as its context). -/
theorem mem_hist_rows (parseF : String → Option ℚ) (df : DF) (gc : List String)
    (sub vc idc : String) (nb : ℕ) (xp : ℚ) (hwf : WFCols gc sub vc idc) :
    ∀ s ∈ (addHistogramColumns parseF df gc sub vc idc nb xp).rows,
      ∃ r ∈ pipelineBase df gc sub vc idc,
        (∀ c, c ≠ sub → c ∉ specialCols → s c = r c) ∧
        s "index" = r "index" ∧
        s "binned_x" =
          (binCells (pipelineBase df gc sub vc idc) gc.dropLast vc nb xp r).1 ∧
        s "rect_width" =
          (binCells (pipelineBase df gc sub vc idc) gc.dropLast vc nb xp r).2 ∧
        s sub = cleanCellFun parseF
          ((pipelineBase df gc sub vc idc).map (fun rb => rb sub)) (r sub) := by
  obtain ⟨wfg, wfs, wfv, wfi, wfsg, wfsv⟩ := hwf
  obtain ⟨hsI, hsB, hsR, hsD, hsC⟩ := not_mem_specialCols wfs
  intro s hs
  simp only [addHistogramColumns] at hs
  obtain ⟨s2, hs2, rfl⟩ := (mem_mapColumn _ _ _ _ _).1 hs
  obtain ⟨s1, hs1, rfl⟩ := (mem_mapColumn _ _ _ _ _).1 hs2
  obtain ⟨b, hb, d, rfl⟩ := mem_addDodge gc _ [] _ hs1
  obtain ⟨r, hr, rfl⟩ := (mem_withBinning _ _ _ _ _ _).1 hb
  refine ⟨r, hr, ?_, ?_, ?_, ?_, ?_⟩
  · intro c hcsub hcs
    obtain ⟨h1, h2, h3, h4, h5⟩ := not_mem_specialCols hcs
    simp [updateCell, h2, h3, h4, h5, hcsub]
  · have e1 : ("index" : String) ≠ "color" := by decide
    have e2 : ("index" : String) ≠ "dodge" := by decide
    have e3 : ("index" : String) ≠ "rect_width" := by decide
    have e4 : ("index" : String) ≠ "binned_x" := by decide
    have e5 : ("index" : String) ≠ sub := Ne.symm hsI
    simp [updateCell, e1, e2, e3, e4, e5]
  · have e1 : ("binned_x" : String) ≠ "color" := by decide
    have e2 : ("binned_x" : String) ≠ "dodge" := by decide
    have e3 : ("binned_x" : String) ≠ "rect_width" := by decide
    have e5 : ("binned_x" : String) ≠ sub := Ne.symm hsB
    simp [updateCell, e1, e2, e3, e5]
  · have e1 : ("rect_width" : String) ≠ "color" := by decide
    have e2 : ("rect_width" : String) ≠ "dodge" := by decide
    have e5 : ("rect_width" : String) ≠ sub := Ne.symm hsR
    simp [updateCell, e1, e2, e5]
  · have hcells : (addDodge gc []
          (withBinning (pipelineBase df gc sub vc idc) gc vc nb xp)).map
            (fun rb => rb sub)
        = (pipelineBase df gc sub vc idc).map (fun rb => rb sub) := by
      rw [addDodge_map_col gc sub hsD _ [],
        withBinning_map_col (pipelineBase df gc sub vc idc) gc vc nb xp sub hsB hsR]
    have hXsub : (updateCell (updateCell (updateCell r "binned_x"
          (binCells (pipelineBase df gc sub vc idc) gc.dropLast vc nb xp r).1)
          "rect_width"
          (binCells (pipelineBase df gc sub vc idc) gc.dropLast vc nb xp r).2)
          "dodge" d) sub = r sub := by
      rw [updateCell_other _ _ _ _ hsD, updateCell_other _ _ _ _ hsR,
        updateCell_other _ _ _ _ hsB]
    rw [updateCell_other _ _ _ _ hsC, updateCell_same, hXsub, hcells]

/-! ### Lemmas for the dodge computation -/

theorem all_eq_decide_map (rr r : Row) : ∀ (l : List String),
    (l.all fun c => decide (rr c = r c)) = decide (l.map rr = l.map r) := by
  intro l
  induction l with
  | nil => simp
  | cons a t ih =>
    simp only [List.all_cons, ih, List.map_cons, List.cons.injEq]
    by_cases h : rr a = r a <;> simp [h]

/-- Filtering and reading an untouched column commute with a `mapColumn`
stage that writes a column the predicate and the read do not mention. -/
theorem filter_map_mapColumn (src dst : String) (mk : List Cell → Cell → Cell)
    (rows : List Row) (p : Row → Bool) (g : Row → Cell)
    (hp : ∀ r v, p (updateCell r dst v) = p r)
    (hg : ∀ r v, g (updateCell r dst v) = g r) :
    ((mapColumn src dst mk rows).filter p).map g = (rows.filter p).map g := by
  unfold mapColumn
  rw [List.filter_map, List.map_map]
  have e1 : rows.filter
      ((fun r => p r) ∘ fun r => updateCell r dst (mk (rows.map fun rr => rr src) (r src)))
      = rows.filter p := by
    apply List.filter_congr
    intro r _
    exact hp r _
  rw [show (p ∘ fun r => updateCell r dst (mk (rows.map fun rr => rr src) (r src)))
      = ((fun r => p r) ∘ fun r => updateCell r dst (mk (rows.map fun rr => rr src) (r src)))
      from rfl, e1]
  apply list_map_congr
  intro r _
  exact hg r _

/-- The cumcount core: in `addDodge`, the rows matching a fixed dodge key
`(key, m)` receive, in order, the dodges `0.5 + (number already seen)`. -/
theorem addDodge_filter_map (gc : List String) (key : List Cell) (m : ℚ)
    (hd1 : "dodge" ∉ gc) :
    ∀ (l prev : List Row),
      (((addDodge gc prev l).filter
          (fun r => decide (gc.map r = key) && decide (r "binned_x" = Cell.num m))).map
        (fun r => r "dodge"))
      = (List.range ((l.filter (fun r =>
            decide (gc.map r = key) && decide (r "binned_x" = Cell.num m))).length)).map
          (fun k => Cell.num (1 / 2 +
            ((((prev.filter (fun r => decide (gc.map r = key) &&
                decide (r "binned_x" = Cell.num m))).length + k : ℕ) : ℚ)))) := by
  intro l
  induction l with
  | nil => intro prev; simp [addDodge]
  | cons r rest ih =>
    intro prev
    have hPu : ∀ d, (decide (gc.map (updateCell r "dodge" d) = key) &&
        decide ((updateCell r "dodge" d) "binned_x" = Cell.num m))
        = (decide (gc.map r = key) && decide (r "binned_x" = Cell.num m)) := by
      intro d
      have e1 : gc.map (updateCell r "dodge" d) = gc.map r := by
        apply list_map_congr
        intro c hc
        exact updateCell_other r "dodge" c d (fun h => hd1 (h ▸ hc))
      have e2 : (updateCell r "dodge" d) "binned_x" = r "binned_x" :=
        updateCell_other r "dodge" "binned_x" d (by decide)
      rw [e1, e2]
    by_cases hP : (decide (gc.map r = key) && decide (r "binned_x" = Cell.num m)) = true
    · have hP2 := hP
      rw [Bool.and_eq_true] at hP2
      have hkey : gc.map r = key := of_decide_eq_true hP2.1
      have hbx : r "binned_x" = Cell.num m := of_decide_eq_true hP2.2
      have hnn : ¬ ((r "binned_x").isNull = true) := by rw [hbx]; simp [Cell.isNull]
      have hsame : ∀ rr, sameDodgeKey gc rr r =
          (decide (gc.map rr = key) && decide (rr "binned_x" = Cell.num m)) := by
        intro rr
        unfold sameDodgeKey
        rw [all_eq_decide_map, hkey, hbx]
      have hprevfilter : (prev.filter (fun rr => sameDodgeKey gc rr r))
          = (prev.filter (fun rr => decide (gc.map rr = key) &&
              decide (rr "binned_x" = Cell.num m))) :=
        List.filter_congr (fun rr _ => hsame rr)
      rw [addDodge_cons, if_neg hnn, List.filter_cons, if_pos ((hPu _).trans hP)]
      simp only [List.map_cons, updateCell_same]
      rw [ih (prev ++ [r])]
      have hlen : ((r :: rest).filter (fun rr => decide (gc.map rr = key) &&
          decide (rr "binned_x" = Cell.num m))).length
          = ((rest.filter (fun rr => decide (gc.map rr = key) &&
              decide (rr "binned_x" = Cell.num m))).length) + 1 := by
        rw [List.filter_cons, if_pos hP]
        simp
      have hlen2 : ((prev ++ [r]).filter (fun rr => decide (gc.map rr = key) &&
          decide (rr "binned_x" = Cell.num m))).length
          = ((prev.filter (fun rr => decide (gc.map rr = key) &&
              decide (rr "binned_x" = Cell.num m))).length) + 1 := by
        rw [List.filter_append, List.filter_cons, if_pos hP]
        simp
      rw [hlen, hlen2, List.range_succ_eq_map, List.map_cons, List.map_map]
      congr 1
      · rw [hprevfilter]
        norm_num
      · apply list_map_congr
        intro k _
        simp only [Function.comp]
        congr 1
        push_cast
        ring
    · have hPf : (decide (gc.map r = key) && decide (r "binned_x" = Cell.num m)) = false := by
        revert hP
        cases (decide (gc.map r = key) && decide (r "binned_x" = Cell.num m)) <;> simp
      rw [addDodge_cons, List.filter_cons,
        if_neg (fun hcontra => hP ((hPu _).symm.trans hcontra))]
      rw [ih (prev ++ [r])]
      have hlen : ((r :: rest).filter (fun rr => decide (gc.map rr = key) &&
          decide (rr "binned_x" = Cell.num m)))
          = (rest.filter (fun rr => decide (gc.map rr = key) &&
              decide (rr "binned_x" = Cell.num m))) := by
        rw [List.filter_cons, if_neg hP]
      have hlen2 : ((prev ++ [r]).filter (fun rr => decide (gc.map rr = key) &&
          decide (rr "binned_x" = Cell.num m)))
          = (prev.filter (fun rr => decide (gc.map rr = key) &&
              decide (rr "binned_x" = Cell.num m))) := by
        rw [List.filter_append, List.filter_cons, if_neg hP]
        simp
      rw [hlen, hlen2]

/-! ### Claim theorems: guard, plot height, next-lower, bounds padding -/

/-- C3 (counterexample): with a single group column the guard raises, even
though the claim says only more than two grouping columns trigger it. -/
theorem guard_raises_on_single_group_col :
    guardRaises ["g"] = true ∧ ¬ (2 < (["g"] : List String).length) := by
  decide

/-- C3 (amended): the feature-limitation guard raises exactly when the
number of grouping columns differs from two; in particular exactly two
grouping columns pass the guard, and one grouping column also raises. -/
theorem guardRaises_iff (group_cols : List String) :
    guardRaises group_cols = true ↔ group_cols.length ≠ 2 := by
  simp [guardRaises]

/-- C4: `_determine_plot_height` emits its usability warning exactly when
the computed per-plot height falls below the 50-pixel threshold, and in
every case returns the computed plot height unchanged. -/
theorem determinePlotHeight_warns_iff_small (fh : Option ℤ) (dm : ℚ)
    (nGroups nParams : ℕ) (_h : 0 < nParams) :
    ((determinePlotHeight fh dm nGroups nParams).2 = true ↔
      (determinePlotHeight fh dm nGroups nParams).1 < 50) ∧
    (determinePlotHeight fh dm nGroups nParams).1 =
      computedPlotHeight fh dm nGroups nParams := by
  unfold determinePlotHeight
  by_cases hlt : computedPlotHeight fh dm nGroups nParams < 50 <;> simp [hlt]

/-- Witness for C4 at a concrete input (figure height 400, one group, four
plots: height 87, no warning). -/
theorem determinePlotHeight_warns_iff_small_witness :
    0 < 4 ∧
    (((determinePlotHeight (some 400) 2 1 4).2 = true ↔
       (determinePlotHeight (some 400) 2 1 4).1 < 50) ∧
     (determinePlotHeight (some 400) 2 1 4).1 =
       computedPlotHeight (some 400) 2 1 4) :=
  ⟨by decide, determinePlotHeight_warns_iff_small (some 400) 2 1 4 (by decide)⟩

/-- C5: on the unsorted array `[3, 5, 1, 0, -10, -5, 0]` and value `-2.5`,
`_find_next_lower` returns `-5`. -/
theorem findNextLower_unsorted_case :
    findNextLower [3, 5, 1, 0, -10, -5, 0] (-(5 / 2)) = some (-5) := by
  norm_num [findNextLower, listMax, List.filter]

/-- C9: for every non-empty value list and positive padding,
`_calculate_x_bounds` returns bounds with `x_min` strictly below every value
and `x_max` strictly above every value (even when all values are equal),
because the white space is at least `1e-50 * padding > 0`. -/
theorem calculateXBounds_strictly_pads (vals : List ℚ) (padding : ℚ)
    (hne : vals ≠ []) (hp : 0 < padding) :
    ∃ p : ℚ × ℚ, calculateXBounds vals padding = some p ∧
      ∀ v ∈ vals, p.1 < v ∧ v < p.2 := by
  obtain ⟨mn, hmn⟩ := listMin_isSome vals hne
  obtain ⟨mx, hmx⟩ := listMax_isSome vals hne
  have hws : 0 < max (mx - mn) (1 / 10 ^ 50) * padding := by
    apply mul_pos _ hp
    have h50 : (0 : ℚ) < 1 / 10 ^ 50 := by positivity
    exact lt_of_lt_of_le h50 (le_max_right _ _)
  refine ⟨(mn - max (mx - mn) (1 / 10 ^ 50) * padding,
           mx + max (mx - mn) (1 / 10 ^ 50) * padding), ?_, ?_⟩
  · simp [calculateXBounds, hmn, hmx]
  · intro v hv
    have h1 := listMin_le vals mn hmn v hv
    have h2 := le_listMax vals mx hmx v hv
    constructor
    · simp only
      linarith
    · simp only
      linarith

/-- C1: for every retained row with a numeric value, `binned_x` is the
midpoint of the histogram bin the value falls into: the bins are `num_bins`
equal-width intervals over `[x_min, x_max]`, the padded bounds of the row's
(outer) group's values; the common width `(x_max - x_min)/num_bins` is
stored in `rect_width`, and `binned_x` is the center of the interval
containing the row's value. -/
theorem binnedX_is_bin_midpoint (parseF : String → Option ℚ) (df : DF)
    (gc : List String) (sub vc idc : String) (nb : ℕ) (xp : ℚ)
    (hwf : WFCols gc sub vc idc) (hnb : 0 < nb) (hxp : 0 < xp) :
    ∀ s ∈ (addHistogramColumns parseF df gc sub vc idc nb xp).rows,
      ∀ v : ℚ, s vc = Cell.num v →
      ∃ xmin xmax : ℚ,
        calculateXBounds
            (groupValues (pipelineBase df gc sub vc idc) gc.dropLast s vc) xp
          = some (xmin, xmax) ∧
        s "rect_width" = Cell.num ((xmax - xmin) / (nb : ℚ)) ∧
        ∃ i : ℕ, i < nb ∧
          xmin + (i : ℚ) * ((xmax - xmin) / (nb : ℚ)) < v ∧
          v ≤ xmin + ((i : ℚ) + 1) * ((xmax - xmin) / (nb : ℚ)) ∧
          s "binned_x" = Cell.num (xmin + (i : ℚ) * ((xmax - xmin) / (nb : ℚ))
            + ((xmax - xmin) / (nb : ℚ)) / 2) := by
  intro s hs v hv
  obtain ⟨r, hr, hoff, _hidx, hbx, hrw, _⟩ :=
    mem_hist_rows parseF df gc sub vc idc nb xp hwf s hs
  obtain ⟨wfg, wfs, wfv, wfi, wfsg, wfsv⟩ := hwf
  have hgkeys : ∀ c ∈ gc.dropLast, s c = r c := by
    intro c hc
    have hcg : c ∈ gc := List.dropLast_subset gc hc
    exact hoff c (fun h => wfsg (h ▸ hcg)) (wfg c hcg)
  have hvc_pres : s vc = r vc :=
    hoff vc (Ne.symm wfsv) wfv
  have hrv : r vc = Cell.num v := by rw [← hvc_pres, hv]
  have hgv_eq :
      groupValues (pipelineBase df gc sub vc idc) gc.dropLast s vc =
      groupValues (pipelineBase df gc sub vc idc) gc.dropLast r vc :=
    groupValues_congr _ _ _ _ _ hgkeys
  have hvmem : v ∈ groupValues (pipelineBase df gc sub vc idc) gc.dropLast r vc :=
    groupValues_self_mem _ _ _ _ _ hr hrv
  have hne : groupValues (pipelineBase df gc sub vc idc) gc.dropLast r vc ≠ [] :=
    List.ne_nil_of_mem hvmem
  obtain ⟨p, hp, hbound⟩ := calculateXBounds_strictly_pads _ xp hne hxp
  obtain ⟨xmin, xmax⟩ := p
  obtain ⟨hvlo, hvhi⟩ := hbound v hvmem
  simp only at hvlo hvhi
  have hnbQ : (0 : ℚ) < (nb : ℚ) := by exact_mod_cast hnb
  have hwpos : 0 < (xmax - xmin) / (nb : ℚ) := div_pos (by linarith) hnbQ
  have hxmax_eq : xmin + (nb : ℚ) * ((xmax - xmin) / (nb : ℚ)) = xmax := by
    field_simp
  obtain ⟨i, hi⟩ := cutIdx_total v ((xmax - xmin) / (nb : ℚ)) hwpos nb xmin hvlo
    (by rw [hxmax_eq]; exact le_of_lt hvhi)
  obtain ⟨hilt, hlo, hhi⟩ := cutIdx_spec v ((xmax - xmin) / (nb : ℚ)) nb xmin i hi
  refine ⟨xmin, xmax, by rw [hgv_eq]; exact hp, ?_, i, hilt, hlo, hhi, ?_⟩
  · rw [hrw]
    simp [binCells, hp]
  · rw [hbx]
    simp [binCells, hp, hrv, Cell.toNum, cutMidCell, hi]

/-- Witness for C1: the hypotheses hold at a concrete configuration. -/
theorem binnedX_is_bin_midpoint_witness :
    (WFCols ["g", "p"] "m" "v" "id" ∧ 0 < 2 ∧ (0 : ℚ) < 1) ∧
    (∀ s ∈ (addHistogramColumns (fun _ => none)
        ⟨["g", "p", "m", "v", "id"], []⟩ ["g", "p"] "m" "v" "id" 2 1).rows,
      ∀ v : ℚ, s "v" = Cell.num v →
      ∃ xmin xmax : ℚ,
        calculateXBounds
            (groupValues (pipelineBase ⟨["g", "p", "m", "v", "id"], []⟩
              ["g", "p"] "m" "v" "id") (["g", "p"] : List String).dropLast s "v") 1
          = some (xmin, xmax) ∧
        s "rect_width" = Cell.num ((xmax - xmin) / ((2 : ℕ) : ℚ)) ∧
        ∃ i : ℕ, i < 2 ∧
          xmin + (i : ℚ) * ((xmax - xmin) / ((2 : ℕ) : ℚ)) < v ∧
          v ≤ xmin + ((i : ℚ) + 1) * ((xmax - xmin) / ((2 : ℕ) : ℚ)) ∧
          s "binned_x" = Cell.num (xmin + (i : ℚ) * ((xmax - xmin) / ((2 : ℕ) : ℚ))
            + ((xmax - xmin) / ((2 : ℕ) : ℚ)) / 2)) :=
  ⟨⟨by decide, by decide, by decide⟩,
    binnedX_is_bin_midpoint (fun _ => none) ⟨["g", "p", "m", "v", "id"], []⟩
      ["g", "p"] "m" "v" "id" 2 1 (by decide) (by decide) (by decide)⟩

/-- C2: among the output rows sharing one dodge key (equal cells in all
group columns and an equal, non-null `binned_x`), the `dodge` cells are, in
row order, exactly `0.5 + k` for `k = 0, …, count-1`, and in particular
pairwise distinct. -/
theorem dodge_values_stack (parseF : String → Option ℚ) (df : DF)
    (gc : List String) (sub vc idc : String) (nb : ℕ) (xp : ℚ)
    (hwf : WFCols gc sub vc idc) :
    ∀ (key : List Cell) (m : ℚ),
      (((addHistogramColumns parseF df gc sub vc idc nb xp).rows.filter
          (fun r => decide (gc.map r = key) && decide (r "binned_x" = Cell.num m))).map
        (fun r => r "dodge"))
      = (List.range (((addHistogramColumns parseF df gc sub vc idc nb xp).rows.filter
            (fun r => decide (gc.map r = key) &&
              decide (r "binned_x" = Cell.num m))).length)).map
          (fun k : ℕ => Cell.num (1 / 2 + (k : ℚ))) ∧
      (((addHistogramColumns parseF df gc sub vc idc nb xp).rows.filter
          (fun r => decide (gc.map r = key) && decide (r "binned_x" = Cell.num m))).map
        (fun r => r "dodge")).Nodup := by
  obtain ⟨wfg, wfs, wfv, wfi, wfsg, wfsv⟩ := hwf
  obtain ⟨hsI, hsB, hsR, hsD, hsC⟩ := not_mem_specialCols wfs
  intro key m
  have hdnotgc : "dodge" ∉ gc := fun h => (not_mem_specialCols (wfg _ h)).2.2.2.1 rfl
  have hcolnotgc : "color" ∉ gc := fun h => (not_mem_specialCols (wfg _ h)).2.2.2.2 rfl
  have stage : ∀ (dst : String), dst ∉ gc → dst ≠ "binned_x" → dst ≠ "dodge" →
      ∀ (src : String) (mk : List Cell → Cell → Cell) (rows : List Row),
      ((mapColumn src dst mk rows).filter
          (fun r => decide (gc.map r = key) && decide (r "binned_x" = Cell.num m))).map
        (fun r => r "dodge")
      = (rows.filter
          (fun r => decide (gc.map r = key) && decide (r "binned_x" = Cell.num m))).map
        (fun r => r "dodge") := by
    intro dst hd1 hd2 hd3 src mk rows
    apply filter_map_mapColumn
    · intro r v
      have e1 : gc.map (updateCell r dst v) = gc.map r :=
        list_map_congr _ _ _ (fun c hc => updateCell_other r dst c v (fun h => hd1 (h ▸ hc)))
      have e2 : (updateCell r dst v) "binned_x" = r "binned_x" :=
        updateCell_other r dst "binned_x" v (Ne.symm hd2)
      show (decide (gc.map (updateCell r dst v) = key) &&
          decide ((updateCell r dst v) "binned_x" = Cell.num m)) = _
      rw [e1, e2]
    · intro r v
      exact updateCell_other r dst "dodge" v (Ne.symm hd3)
  have main := addDodge_filter_map gc key m hdnotgc
    (withBinning (pipelineBase df gc sub vc idc) gc vc nb xp) []
  have hrows : (addHistogramColumns parseF df gc sub vc idc nb xp).rows
      = mapColumn sub "color" colorFun
          (mapColumn sub sub (cleanCellFun parseF)
            (addDodge gc []
              (withBinning (pipelineBase df gc sub vc idc) gc vc nb xp))) := rfl
  have chain : (((addHistogramColumns parseF df gc sub vc idc nb xp).rows.filter
        (fun r => decide (gc.map r = key) && decide (r "binned_x" = Cell.num m))).map
      (fun r => r "dodge"))
      = (List.range (((withBinning (pipelineBase df gc sub vc idc) gc vc nb xp).filter
            (fun r => decide (gc.map r = key) &&
              decide (r "binned_x" = Cell.num m))).length)).map
          (fun k => Cell.num (1 / 2 +
            (((((([] : List Row).filter (fun r => decide (gc.map r = key) &&
                decide (r "binned_x" = Cell.num m))).length + k : ℕ)) : ℚ)))) := by
    rw [hrows, stage "color" hcolnotgc (by decide) (by decide),
      stage sub wfsg hsB hsD, main]
  have hlen : (((addHistogramColumns parseF df gc sub vc idc nb xp).rows.filter
        (fun r => decide (gc.map r = key) && decide (r "binned_x" = Cell.num m))).length)
      = (((withBinning (pipelineBase df gc sub vc idc) gc vc nb xp).filter
          (fun r => decide (gc.map r = key) &&
            decide (r "binned_x" = Cell.num m))).length) := by
    have hc := congrArg List.length chain
    simpa using hc
  have hEq : (((addHistogramColumns parseF df gc sub vc idc nb xp).rows.filter
        (fun r => decide (gc.map r = key) && decide (r "binned_x" = Cell.num m))).map
      (fun r => r "dodge"))
      = (List.range (((addHistogramColumns parseF df gc sub vc idc nb xp).rows.filter
            (fun r => decide (gc.map r = key) &&
              decide (r "binned_x" = Cell.num m))).length)).map
          (fun k : ℕ => Cell.num (1 / 2 + (k : ℚ))) := by
    rw [hlen, chain]
    apply list_map_congr
    intro k _
    norm_num
  refine ⟨hEq, ?_⟩
  rw [hEq]
  have hinj : Function.Injective (fun k : ℕ => Cell.num (1 / 2 + (k : ℚ))) := by
    intro a b h
    simp only [Cell.num.injEq] at h
    have : (a : ℚ) = (b : ℚ) := by linarith
    exact_mod_cast this
  exact (List.nodup_range _).map hinj

/-- Witness for C2: the hypothesis holds at a concrete configuration. -/
theorem dodge_values_stack_witness :
    WFCols ["g", "p"] "m" "v" "id" ∧
    (∀ (key : List Cell) (m : ℚ),
      (((addHistogramColumns (fun _ => none)
            ⟨["g", "p", "m", "v", "id"], []⟩ ["g", "p"] "m" "v" "id" 2 1).rows.filter
          (fun r => decide ((["g", "p"] : List String).map r = key) &&
            decide (r "binned_x" = Cell.num m))).map (fun r => r "dodge"))
      = (List.range (((addHistogramColumns (fun _ => none)
            ⟨["g", "p", "m", "v", "id"], []⟩ ["g", "p"] "m" "v" "id" 2 1).rows.filter
            (fun r => decide ((["g", "p"] : List String).map r = key) &&
              decide (r "binned_x" = Cell.num m))).length)).map
          (fun k : ℕ => Cell.num (1 / 2 + (k : ℚ))) ∧
      (((addHistogramColumns (fun _ => none)
            ⟨["g", "p", "m", "v", "id"], []⟩ ["g", "p"] "m" "v" "id" 2 1).rows.filter
          (fun r => decide ((["g", "p"] : List String).map r = key) &&
            decide (r "binned_x" = Cell.num m))).map (fun r => r "dodge")).Nodup) :=
  ⟨by decide,
    dodge_values_stack (fun _ => none) ⟨["g", "p", "m", "v", "id"], []⟩
      ["g", "p"] "m" "v" "id" 2 1 (by decide)⟩

/-- C6 (counterexample): `add_histogram_columns_to_tidy_df` also adds an
`index` column (from `reset_index`), which is neither an input column nor
one of the four derived presentation columns the claim lists. -/
theorem hist_adds_index_column :
    "index" ∈ (addHistogramColumns (fun _ => none)
        ⟨["g", "p", "m", "v", "id"], []⟩ ["g", "p"] "m" "v" "id" 2 1).cols ∧
    "index" ∉ (⟨["g", "p", "m", "v", "id"], []⟩ : DF).cols ∧
    "index" ∉ ["binned_x", "rect_width", "dodge", "color"] := by
  decide

/-- C6 (amended): the output's columns are exactly the input's plus the new
first column `index` (inserted by `reset_index` and holding the row's
original position) and the appended derived columns `binned_x`,
`rect_width`, `dodge` and `color`; the subgroup column is normalised in
place (each retained row's subgroup cell is `_clean_subgroup_col` applied
to its original subgroup value, with the whole retained subgroup column as
context); and every retained row keeps the values of all other original
columns unchanged. -/
theorem hist_columns_and_row_preservation (parseF : String → Option ℚ)
    (df : DF) (gc : List String) (sub vc idc : String) (nb : ℕ) (xp : ℚ)
    (hwf : WFCols gc sub vc idc) :
    (addHistogramColumns parseF df gc sub vc idc nb xp).cols
      = "index" :: df.cols ++ ["binned_x", "rect_width", "dodge", "color"] ∧
    ∀ s ∈ (addHistogramColumns parseF df gc sub vc idc nb xp).rows,
      ∃ i : ℕ, ∃ r : Row, (i, r) ∈ withPositions 0 df.rows ∧
        s "index" = Cell.num (i : ℚ) ∧
        s sub = cleanCellFun parseF
          ((pipelineBase df gc sub vc idc).map (fun rb => rb sub)) (r sub) ∧
        ∀ c, c ≠ sub → c ∉ specialCols → s c = r c := by
  have hsI : sub ≠ "index" := (not_mem_specialCols hwf.2.1).1
  refine ⟨rfl, ?_⟩
  intro s hs
  obtain ⟨rb, hrb, hoff, hidx, _, _, hsubval⟩ :=
    mem_hist_rows parseF df gc sub vc idc nb xp hwf s hs
  obtain ⟨p, hpmem, hkeep, rfl⟩ :=
    (mem_pipelineBase df gc sub vc idc _).1 hrb
  obtain ⟨i, orig⟩ := p
  refine ⟨i, orig, hpmem, ?_, ?_, ?_⟩
  · rw [hidx]
    exact updateCell_same orig "index" (Cell.num (i : ℚ))
  · rw [hsubval]
    congr 1
    exact updateCell_other orig "index" sub (Cell.num (i : ℚ)) hsI
  · intro c hcsub hcs
    rw [hoff c hcsub hcs]
    exact updateCell_other orig "index" c (Cell.num (i : ℚ))
      (not_mem_specialCols hcs).1

/-- Witness for C6's amended theorem at a concrete configuration. -/
theorem hist_columns_and_row_preservation_witness :
    WFCols ["g", "p"] "m" "v" "id" ∧
    ((addHistogramColumns (fun _ => none)
        ⟨["g", "p", "m", "v", "id"], []⟩ ["g", "p"] "m" "v" "id" 2 1).cols
      = "index" :: ["g", "p", "m", "v", "id"]
          ++ ["binned_x", "rect_width", "dodge", "color"] ∧
    ∀ s ∈ (addHistogramColumns (fun _ => none)
        ⟨["g", "p", "m", "v", "id"], []⟩ ["g", "p"] "m" "v" "id" 2 1).rows,
      ∃ i : ℕ, ∃ r : Row,
        (i, r) ∈ withPositions 0 (⟨["g", "p", "m", "v", "id"], []⟩ : DF).rows ∧
        s "index" = Cell.num (i : ℚ) ∧
        s "m" = cleanCellFun (fun _ => none)
          ((pipelineBase ⟨["g", "p", "m", "v", "id"], []⟩ ["g", "p"] "m" "v" "id").map
            (fun rb => rb "m")) (r "m") ∧
        ∀ c, c ≠ "m" → c ∉ specialCols → s c = r c) :=
  ⟨by decide,
    hist_columns_and_row_preservation (fun _ => none)
      ⟨["g", "p", "m", "v", "id"], []⟩ ["g", "p"] "m" "v" "id" 2 1 (by decide)⟩

/-- C8: a row of the input survives into the output (as witnessed by its
original position recorded in the `index` column) iff it has no null in any
of the group columns, the subgroup column, the value column and the id
column; nulls in any other column never cause a drop. -/
theorem hist_drops_exactly_null_key_rows (parseF : String → Option ℚ)
    (df : DF) (gc : List String) (sub vc idc : String) (nb : ℕ) (xp : ℚ)
    (hwf : WFCols gc sub vc idc) :
    ∀ p ∈ withPositions 0 df.rows,
      ((∃ s ∈ (addHistogramColumns parseF df gc sub vc idc nb xp).rows,
          s "index" = Cell.num (p.1 : ℚ)) ↔
        keepRow (gc ++ [sub, vc, idc]) p.2 = true) := by
  obtain ⟨wfg, wfs, wfv, wfi, wfsg, wfsv⟩ := hwf
  obtain ⟨hsI, hsB, hsR, hsD, hsC⟩ := not_mem_specialCols wfs
  rintro ⟨i, orig⟩ hp
  constructor
  · rintro ⟨s, hs, hsi⟩
    obtain ⟨rb, hrb, hoff, hidx, _, _⟩ :=
      mem_hist_rows parseF df gc sub vc idc nb xp
        ⟨wfg, wfs, wfv, wfi, wfsg, wfsv⟩ s hs
    obtain ⟨⟨i2, orig2⟩, hmem2, hkeep2, rfl⟩ :=
      (mem_pipelineBase df gc sub vc idc _).1 hrb
    have hnum : Cell.num (i : ℚ) = Cell.num (i2 : ℚ) := by
      rw [← hsi, hidx]
      exact updateCell_same orig2 "index" (Cell.num (i2 : ℚ))
    have hii : i = i2 := by
      have := Cell.num.inj hnum
      exact_mod_cast this
    subst hii
    have horig : orig = orig2 := withPositions_inj df.rows 0 i orig orig2 hp hmem2
    rw [horig]
    exact hkeep2
  · intro hkeep
    have hbase : updateCell orig "index" (Cell.num (i : ℚ)) ∈
        pipelineBase df gc sub vc idc :=
      (mem_pipelineBase df gc sub vc idc _).2 ⟨(i, orig), hp, hkeep, rfl⟩
    have hbin := (mem_withBinning (pipelineBase df gc sub vc idc) gc vc nb xp _).2
      ⟨updateCell orig "index" (Cell.num (i : ℚ)), hbase, rfl⟩
    obtain ⟨d, hd⟩ := addDodge_mem_forward gc _ [] _ hbin
    have h3 := mapColumn_mem_forward sub sub (cleanCellFun parseF) _ _ hd
    have h4 := mapColumn_mem_forward sub "color" colorFun _ _ h3
    refine ⟨_, h4, ?_⟩
    have e1 : ("index" : String) ≠ "color" := by decide
    have e2 : ("index" : String) ≠ "dodge" := by decide
    have e3 : ("index" : String) ≠ "rect_width" := by decide
    have e4 : ("index" : String) ≠ "binned_x" := by decide
    have e5 : ("index" : String) ≠ sub := Ne.symm hsI
    simp [updateCell, e1, e2, e3, e4, e5]

/-- Witness for C8 at a concrete configuration. -/
theorem hist_drops_exactly_null_key_rows_witness :
    WFCols ["g", "p"] "m" "v" "id" ∧
    (∀ p ∈ withPositions 0 (⟨["g", "p", "m", "v", "id"], []⟩ : DF).rows,
      ((∃ s ∈ (addHistogramColumns (fun _ => none)
            ⟨["g", "p", "m", "v", "id"], []⟩ ["g", "p"] "m" "v" "id" 2 1).rows,
          s "index" = Cell.num (p.1 : ℚ)) ↔
        keepRow (["g", "p"] ++ ["m", "v", "id"]) p.2 = true)) :=
  ⟨by decide,
    hist_drops_exactly_null_key_rows (fun _ => none)
      ⟨["g", "p", "m", "v", "id"], []⟩ ["g", "p"] "m" "v" "id" 2 1 (by decide)⟩

theorem getColorPalette_length (n : ℕ) : (getColorPalette n).length = n := by
  simp [getColorPalette]

theorem lookupCell_zip_mem : ∀ (uniq : List Cell) (palette : List String)
    (c : Cell), c ∈ uniq → palette.length = uniq.length →
    ∃ col ∈ palette, lookupCell (uniq.zip palette) c = some col := by
  intro uniq
  induction uniq with
  | nil => intro palette c hc _; simp at hc
  | cons a t ih =>
    intro palette c hc hlen
    cases palette with
    | nil => simp at hlen
    | cons q ps =>
      by_cases hca : c = a
      · exact ⟨q, List.mem_cons_self _ _, by simp [lookupCell, hca]⟩
      · rcases List.mem_cons.1 hc with rfl | hct
        · exact absurd rfl hca
        · obtain ⟨col, hcol, hlk⟩ := ih ps c hct (by simpa using hlen)
          refine ⟨col, List.mem_cons_of_mem _ hcol, ?_⟩
          rw [List.zip_cons_cons]
          simp only [lookupCell, if_neg hca]
          exact hlk

/-- C7: the `color` column is the image of the cleaned subgroup column
under the single value-to-color mapping `colorFun`; rows with equal
subgroup values get equal colors, the palette has exactly as many colors as
there are unique subgroup values, and every unique subgroup value is
assigned a color from that palette. -/
theorem hist_color_is_palette_image (parseF : String → Option ℚ) (df : DF)
    (gc : List String) (sub vc idc : String) (nb : ℕ) (xp : ℚ)
    (hwf : WFCols gc sub vc idc) :
    (∀ s ∈ (addHistogramColumns parseF df gc sub vc idc nb xp).rows,
      s "color" = colorFun
        ((addHistogramColumns parseF df gc sub vc idc nb xp).rows.map
          (fun r => r sub)) (s sub)) ∧
    (∀ s1 ∈ (addHistogramColumns parseF df gc sub vc idc nb xp).rows,
     ∀ s2 ∈ (addHistogramColumns parseF df gc sub vc idc nb xp).rows,
      s1 sub = s2 sub → s1 "color" = s2 "color") ∧
    (getColorPalette (uniqueList
        ((addHistogramColumns parseF df gc sub vc idc nb xp).rows.map
          (fun r => r sub))).length).length
      = (uniqueList ((addHistogramColumns parseF df gc sub vc idc nb xp).rows.map
          (fun r => r sub))).length ∧
    (∀ c ∈ uniqueList ((addHistogramColumns parseF df gc sub vc idc nb xp).rows.map
        (fun r => r sub)),
      ∃ col ∈ getColorPalette (uniqueList
          ((addHistogramColumns parseF df gc sub vc idc nb xp).rows.map
            (fun r => r sub))).length,
        colorFun ((addHistogramColumns parseF df gc sub vc idc nb xp).rows.map
          (fun r => r sub)) c = Cell.str col) := by
  obtain ⟨wfg, wfs, wfv, wfi, wfsg, wfsv⟩ := hwf
  obtain ⟨hsI, hsB, hsR, hsD, hsC⟩ := not_mem_specialCols wfs
  have hrows : (addHistogramColumns parseF df gc sub vc idc nb xp).rows
      = mapColumn sub "color" colorFun
          (mapColumn sub sub (cleanCellFun parseF)
            (addDodge gc []
              (withBinning (pipelineBase df gc sub vc idc) gc vc nb xp))) := rfl
  have hcells : (addHistogramColumns parseF df gc sub vc idc nb xp).rows.map
        (fun r => r sub)
      = (mapColumn sub sub (cleanCellFun parseF)
          (addDodge gc []
            (withBinning (pipelineBase df gc sub vc idc) gc vc nb xp))).map
        (fun r => r sub) := by
    rw [hrows]
    unfold mapColumn
    rw [List.map_map]
    apply list_map_congr
    intro r _
    exact updateCell_other r "color" sub _ hsC
  have hmain : ∀ s ∈ (addHistogramColumns parseF df gc sub vc idc nb xp).rows,
      s "color" = colorFun
        ((addHistogramColumns parseF df gc sub vc idc nb xp).rows.map
          (fun r => r sub)) (s sub) := by
    intro s hs
    rw [hrows] at hs
    obtain ⟨r, hr, rfl⟩ := (mem_mapColumn _ _ _ _ _).1 hs
    have hscolor := updateCell_same r "color"
      (colorFun ((mapColumn sub sub (cleanCellFun parseF)
        (addDodge gc [] (withBinning (pipelineBase df gc sub vc idc) gc vc nb xp))).map
          (fun rr => rr sub)) (r sub))
    have hssub := updateCell_other r "color" sub
      (colorFun ((mapColumn sub sub (cleanCellFun parseF)
        (addDodge gc [] (withBinning (pipelineBase df gc sub vc idc) gc vc nb xp))).map
          (fun rr => rr sub)) (r sub)) hsC
    rw [hscolor, hssub, hcells]
  refine ⟨hmain, ?_, getColorPalette_length _, ?_⟩
  · intro s1 h1 s2 h2 hsub
    rw [hmain s1 h1, hmain s2 h2, hsub]
  · intro c hc
    obtain ⟨col, hcol, hlk⟩ := lookupCell_zip_mem _
      (getColorPalette (uniqueList
        ((addHistogramColumns parseF df gc sub vc idc nb xp).rows.map
          (fun r => r sub))).length) c hc (getColorPalette_length _)
    exact ⟨col, hcol, by simp [colorFun, hlk]⟩

/-- Witness for C7 at a concrete configuration. -/
theorem hist_color_is_palette_image_witness :
    WFCols ["g", "p"] "m" "v" "id" ∧
    ((∀ s ∈ (addHistogramColumns (fun _ => none)
          ⟨["g", "p", "m", "v", "id"], []⟩ ["g", "p"] "m" "v" "id" 2 1).rows,
        s "color" = colorFun
          ((addHistogramColumns (fun _ => none)
            ⟨["g", "p", "m", "v", "id"], []⟩ ["g", "p"] "m" "v" "id" 2 1).rows.map
            (fun r => r "m")) (s "m")) ∧
      (∀ s1 ∈ (addHistogramColumns (fun _ => none)
          ⟨["g", "p", "m", "v", "id"], []⟩ ["g", "p"] "m" "v" "id" 2 1).rows,
       ∀ s2 ∈ (addHistogramColumns (fun _ => none)
          ⟨["g", "p", "m", "v", "id"], []⟩ ["g", "p"] "m" "v" "id" 2 1).rows,
        s1 "m" = s2 "m" → s1 "color" = s2 "color") ∧
      (getColorPalette (uniqueList
          ((addHistogramColumns (fun _ => none)
            ⟨["g", "p", "m", "v", "id"], []⟩ ["g", "p"] "m" "v" "id" 2 1).rows.map
            (fun r => r "m"))).length).length
        = (uniqueList ((addHistogramColumns (fun _ => none)
            ⟨["g", "p", "m", "v", "id"], []⟩ ["g", "p"] "m" "v" "id" 2 1).rows.map
            (fun r => r "m"))).length ∧
      (∀ c ∈ uniqueList ((addHistogramColumns (fun _ => none)
            ⟨["g", "p", "m", "v", "id"], []⟩ ["g", "p"] "m" "v" "id" 2 1).rows.map
            (fun r => r "m")),
        ∃ col ∈ getColorPalette (uniqueList
            ((addHistogramColumns (fun _ => none)
              ⟨["g", "p", "m", "v", "id"], []⟩ ["g", "p"] "m" "v" "id" 2 1).rows.map
              (fun r => r "m"))).length,
          colorFun ((addHistogramColumns (fun _ => none)
              ⟨["g", "p", "m", "v", "id"], []⟩ ["g", "p"] "m" "v" "id" 2 1).rows.map
              (fun r => r "m")) c = Cell.str col)) :=
  ⟨by decide,
    hist_color_is_palette_image (fun _ => none)
      ⟨["g", "p", "m", "v", "id"], []⟩ ["g", "p"] "m" "v" "id" 2 1 (by decide)⟩

/-- C10: with two group columns, all rows sharing the value of the first
(outer) group column have identical `rect_width` and are binned against the
same bin edges (`cutMidCell` with one shared origin and width), because the
binning grouping excludes the last group column. -/
theorem outer_group_shares_bins (parseF : String → Option ℚ) (df : DF)
    (g1 g2 sub vc idc : String) (nb : ℕ) (xp : ℚ)
    (hwf : WFCols [g1, g2] sub vc idc) :
    ∀ r1 ∈ (addHistogramColumns parseF df [g1, g2] sub vc idc nb xp).rows,
    ∀ r2 ∈ (addHistogramColumns parseF df [g1, g2] sub vc idc nb xp).rows,
      r1 g1 = r2 g1 →
      r1 "rect_width" = r2 "rect_width" ∧
      ∃ xmin w : ℚ,
        ∀ r ∈ (addHistogramColumns parseF df [g1, g2] sub vc idc nb xp).rows,
          r g1 = r1 g1 →
          r "rect_width" = r1 "rect_width" ∧
          ∀ v : ℚ, r vc = Cell.num v → r "binned_x" = cutMidCell v xmin w nb := by
  obtain ⟨wfg, wfs, wfv, wfi, wfsg, wfsv⟩ := hwf
  have hg1mem : g1 ∈ [g1, g2] := by simp
  have extract : ∀ r ∈ (addHistogramColumns parseF df [g1, g2] sub vc idc nb xp).rows,
      ∃ rb ∈ pipelineBase df [g1, g2] sub vc idc,
        r g1 = rb g1 ∧ r vc = rb vc ∧
        r "binned_x" =
          (binCells (pipelineBase df [g1, g2] sub vc idc) [g1] vc nb xp rb).1 ∧
        r "rect_width" =
          (binCells (pipelineBase df [g1, g2] sub vc idc) [g1] vc nb xp rb).2 := by
    intro r hrr
    obtain ⟨rb, hrb, hoff, _, hbx, hrw, _⟩ :=
      mem_hist_rows parseF df [g1, g2] sub vc idc nb xp
        ⟨wfg, wfs, wfv, wfi, wfsg, wfsv⟩ r hrr
    refine ⟨rb, hrb, ?_, ?_, hbx, hrw⟩
    · exact hoff g1 (fun h => wfsg (h ▸ hg1mem)) (wfg g1 hg1mem)
    · exact hoff vc (Ne.symm wfsv) wfv
  intro r1 h1 r2 h2 hg
  obtain ⟨rb1, hrb1, e11, e12, e13, e14⟩ := extract r1 h1
  obtain ⟨rb2, hrb2, e21, e22, e23, e24⟩ := extract r2 h2
  have hgv12 :
      groupValues (pipelineBase df [g1, g2] sub vc idc) [g1] rb1 vc =
      groupValues (pipelineBase df [g1, g2] sub vc idc) [g1] rb2 vc := by
    apply groupValues_congr
    intro c hc
    simp only [List.mem_singleton] at hc
    subst hc
    rw [← e11, hg, e21]
  constructor
  · rw [e14, e24]
    cases hb : calculateXBounds
        (groupValues (pipelineBase df [g1, g2] sub vc idc) [g1] rb2 vc) xp with
    | none => simp [binCells, hgv12, hb]
    | some pq =>
      obtain ⟨xmin, xmax⟩ := pq
      simp [binCells, hgv12, hb]
  · cases hb : calculateXBounds
        (groupValues (pipelineBase df [g1, g2] sub vc idc) [g1] rb1 vc) xp with
    | some pq =>
      obtain ⟨xmin, xmax⟩ := pq
      refine ⟨xmin, (xmax - xmin) / (nb : ℚ), ?_⟩
      intro r hrr hrg
      obtain ⟨rb, hrb, f1, f2, f3, f4⟩ := extract r hrr
      have hgv :
          groupValues (pipelineBase df [g1, g2] sub vc idc) [g1] rb vc =
          groupValues (pipelineBase df [g1, g2] sub vc idc) [g1] rb1 vc := by
        apply groupValues_congr
        intro c hc
        simp only [List.mem_singleton] at hc
        subst hc
        rw [← f1, hrg, e11]
      constructor
      · rw [f4, e14]
        simp [binCells, hgv, hb]
      · intro v hv
        have hrbv : rb vc = Cell.num v := by rw [← f2, hv]
        rw [f3]
        simp [binCells, hgv, hb, hrbv, Cell.toNum]
    | none =>
      refine ⟨0, 0, ?_⟩
      intro r hrr hrg
      obtain ⟨rb, hrb, f1, f2, f3, f4⟩ := extract r hrr
      have hgv :
          groupValues (pipelineBase df [g1, g2] sub vc idc) [g1] rb vc =
          groupValues (pipelineBase df [g1, g2] sub vc idc) [g1] rb1 vc := by
        apply groupValues_congr
        intro c hc
        simp only [List.mem_singleton] at hc
        subst hc
        rw [← f1, hrg, e11]
      constructor
      · rw [f4, e14]
        simp [binCells, hgv, hb]
      · intro v hv
        exfalso
        have hrbv : rb vc = Cell.num v := by rw [← f2, hv]
        have hvm : v ∈ groupValues (pipelineBase df [g1, g2] sub vc idc) [g1] rb vc :=
          groupValues_self_mem _ _ _ _ _ hrb hrbv
        rw [hgv, calculateXBounds_eq_none _ _ hb] at hvm
        simp at hvm

/-- Witness for C10: the hypothesis holds at a concrete configuration. -/
theorem outer_group_shares_bins_witness :
    WFCols ["g", "p"] "m" "v" "id" ∧
    (∀ r1 ∈ (addHistogramColumns (fun _ => none)
        ⟨["g", "p", "m", "v", "id"], []⟩ ["g", "p"] "m" "v" "id" 2 1).rows,
     ∀ r2 ∈ (addHistogramColumns (fun _ => none)
        ⟨["g", "p", "m", "v", "id"], []⟩ ["g", "p"] "m" "v" "id" 2 1).rows,
      r1 "g" = r2 "g" →
      r1 "rect_width" = r2 "rect_width" ∧
      ∃ xmin w : ℚ,
        ∀ r ∈ (addHistogramColumns (fun _ => none)
            ⟨["g", "p", "m", "v", "id"], []⟩ ["g", "p"] "m" "v" "id" 2 1).rows,
          r "g" = r1 "g" →
          r "rect_width" = r1 "rect_width" ∧
          ∀ v : ℚ, r "v" = Cell.num v → r "binned_x" = cutMidCell v xmin w 2) :=
  ⟨by decide,
    outer_group_shares_bins (fun _ => none) ⟨["g", "p", "m", "v", "id"], []⟩
      "g" "p" "m" "v" "id" 2 1 (by decide)⟩

/-- Witness for C9 at the concrete one-element value list `[1]` with
padding `1`. -/
theorem calculateXBounds_strictly_pads_witness :
    (([(1 : ℚ)] ≠ []) ∧ (0 : ℚ) < 1) ∧
    (∃ p : ℚ × ℚ, calculateXBounds [(1 : ℚ)] 1 = some p ∧
      ∀ v ∈ [(1 : ℚ)], p.1 < v ∧ v < p.2) :=
  ⟨⟨by decide, by decide⟩,
    calculateXBounds_strictly_pads [(1 : ℚ)] 1 (by decide) (by decide)⟩

end IDP
